import Mathlib

/-!
Verification of the `synchronizer` program (cmd/synchronizer/main.go) of the
vault-kubernetes repository.

The program reconciles a desired mapping of Kubernetes secret names to Vault
secret paths against the secrets of one Kubernetes namespace:

* `newFromEnvironment` parses the `VAULT_SECRETS` environment value into the
  desired mapping (Go map, key = kubernetes secret name, value = vault path);
* `checkSecrets` (degraded mode, when the token file is unreadable) checks
  mere existence of every desired secret;
* `synchronize` fetches each vault secret, creates or updates the
  corresponding kubernetes secret carrying the `vault-secret` annotation, and
  afterwards deletes annotated secrets whose name is no longer desired.

The embedding below mirrors the Go source statement by statement.  Go maps
become association lists with in-place overwrite (`setKV`); the mutable
`annotations` variable of `synchronize` (created once before the loop) is
threaded through the loop as explicit state; fallible API calls are driven by
a `World` of oracles (remote read results and per-name fault switches for the
kubernetes Get/Create/Update/Delete/List calls).
-/

/-- Association map with string keys and values, modelling a Go
`map[string]string` (also used for `map[string][]byte`, byte values kept as
strings). -/
abbrev SMap := List (String × String)

/-- Lookup in an association map: the Go read `m[k]` (first binding wins;
maps built with `setKV` have at most one binding per key). -/
def lookupKV : SMap → String → Option String
  | [], _ => none
  | (k', v') :: rest, k => if k' = k then some v' else lookupKV rest k

/-- In-place overwrite: the Go assignment `m[k] = v`. -/
def setKV : SMap → String → String → SMap
  | [], k, v => [(k, v)]
  | (k', v') :: rest, k, v =>
    if k' = k then (k, v) :: rest else (k', v') :: setKV rest k v

/-- The marker annotation key (the constant at line 27 of the source;
renamed here). -/
def vaultMarker : String := "vault-secret"

/-- A kubernetes secret object: name, data fields, annotations
(`corev1.Secret` restricted to the fields the program touches). -/
structure KSecret where
  name : String
  data : SMap
  annotations : SMap
deriving DecidableEq

/-- The secrets existing in the namespace (the local store). -/
abbrev Store := List KSecret

/-- The kubernetes Get by name (successful outcome): first object of that
name, if any. -/
def storeGet (st : Store) (n : String) : Option KSecret :=
  st.find? (fun s => s.name = n)

/-- A secret is managed when it carries the `vault-secret` annotation. -/
def isManaged (s : KSecret) : Bool :=
  (lookupKV s.annotations vaultMarker).isSome

/-- Names of the managed secrets of a store. -/
def managedNames (st : Store) : List String :=
  (st.filter (fun s => isManaged s)).map (fun s => s.name)

/-- Environment of one run: result of each vault read (`none` = the read
returned an error) and fault switches for the kubernetes API calls.  A
`getFault` makes Get fail with an error other than NotFound; `createFault`,
`updateFault` and `deleteFault` make the corresponding write call fail;
`listFault` makes the List call fail. -/
structure World where
  remote : String → Option SMap
  getFault : String → Bool
  createFault : String → Bool
  updateFault : String → Bool
  deleteFault : String → Bool
  listFault : Bool

/-- Errors that abort `synchronize` (returned to `main`, which exits
non-zero): a vault read error or a kubernetes Create/Update error. -/
inductive SyncError
  | remoteFetch (source : String)
  | localWrite (name : String)
deriving DecidableEq

/-- One iteration of the create/update loop of `synchronize`, for the entry
`(k, v)` (kubernetes name `k`, vault path `v`), given the current value
`ann` of the shared `annotations` map and the current store.  Mirrors lines
138–167 of the source: read vault, convert data, set the annotation, build
the secret, Get by name, then Create on NotFound and Update otherwise.
On success returns the new annotations value, the new store, the object as
written, and whether it was created (`true`) or updated (`false`). -/
def syncStep (w : World) (ann : SMap) (st : Store) (k v : String) :
    Except SyncError (SMap × Store × KSecret × Bool) :=
  match w.remote v with
  | none => .error (.remoteFetch v)
  | some payload =>
    let ann' := setKV ann vaultMarker v
    let secret : KSecret := ⟨k, payload, ann'⟩
    if w.getFault k = false ∧ storeGet st k = none then
      -- Get returned NotFound: create
      if w.createFault k then .error (.localWrite k)
      else .ok (ann', st ++ [secret], secret, true)
    else
      -- Get found the object, or returned another error: update
      if w.updateFault k = true ∨ storeGet st k = none then
        .error (.localWrite k)
      else
        .ok (ann', st.map (fun t => if t.name = k then secret else t),
             secret, false)

/-- Outcome of the create/update loop: error (if it aborted), final value of
the shared annotations map, resulting store, and logs of the run — names
created, names updated, the objects as written, and the value the shared
annotations map held at the start of each iteration. -/
structure LoopOut where
  err : Option SyncError
  ann : SMap
  store : Store
  created : List String
  updated : List String
  writes : List KSecret
  annAtIterStart : List SMap
deriving DecidableEq

/-- The create/update loop of `synchronize` over the desired entries, in
iteration order.  Aborts on the first failing step (the Go `return err`). -/
def syncLoop (w : World) : SMap → Store → List (String × String) → LoopOut
  | ann, st, [] => ⟨none, ann, st, [], [], [], []⟩
  | ann, st, (k, v) :: rest =>
    match syncStep w ann st k v with
    | .error e => ⟨some e, ann, st, [], [], [], [ann]⟩
    | .ok (ann', st', secret, created) =>
      let r := syncLoop w ann' st' rest
      ⟨r.err, r.ann, r.store,
       (if created then [k] else []) ++ r.created,
       (if created then [] else [k]) ++ r.updated,
       secret :: r.writes,
       ann :: r.annAtIterStart⟩

/-- Outcome of the deletion phase: resulting store, names deleted, and names
whose deletion failed (logged and skipped in the source). -/
structure CleanupOut where
  store : Store
  deleted : List String
  deleteFailed : List String
deriving DecidableEq

/-- The deletion loop of `synchronize` (lines 175–188): for each listed
secret, skip it unless it carries the `vault-secret` annotation, skip it if
its name is a key of the desired mapping, otherwise delete it; a failing
delete is logged and the loop continues. -/
def cleanup (w : World) (desired : List (String × String)) :
    Store → CleanupOut
  | [] => ⟨[], [], []⟩
  | s :: rest =>
    let r := cleanup w desired rest
    if isManaged s = false then ⟨s :: r.store, r.deleted, r.deleteFailed⟩
    else if desired.any (fun kv => kv.1 = s.name) then
      ⟨s :: r.store, r.deleted, r.deleteFailed⟩
    else if w.deleteFault s.name then
      ⟨s :: r.store, r.deleted, s.name :: r.deleteFailed⟩
    else ⟨r.store, s.name :: r.deleted, r.deleteFailed⟩

/-- How a run of `synchronize` ends: a returned error (fatal in `main`), the
`os.Exit(0)` taken when the List call fails (cleanup skipped), or a normal
successful return. -/
inductive SyncOutcome
  | fatal (e : SyncError)
  | cleanupSkipped
  | success
deriving DecidableEq

/-- Everything observable about one run of `synchronize`. -/
structure SyncRun where
  outcome : SyncOutcome
  loop : LoopOut
  deleted : List String
  deleteFailed : List String
  store : Store
deriving DecidableEq

/-- The whole of `synchronize` (lines 133–189): the create/update loop with
the `annotations` map created once, empty, before the loop; on loop error
return it; then List (on failure, log and `os.Exit(0)`); then the deletion
loop; return nil even when some deletions failed. -/
def synchronize (w : World) (secrets : List (String × String))
    (st : Store) : SyncRun :=
  let L := syncLoop w [] st secrets
  match L.err with
  | some e => ⟨.fatal e, L, [], [], L.store⟩
  | none =>
    if w.listFault then ⟨.cleanupSkipped, L, [], [], L.store⟩
    else
      let C := cleanup w secrets L.store
      ⟨.success, L, C.deleted, C.deleteFailed, C.store⟩

/-- The degraded-mode check (lines 120–130): for each desired entry, Get the
kubernetes secret by name; on any error report that name.  Returns the first
failing name, if any.  A Get errs when the object is absent or the call
itself faults. -/
def checkSecrets (w : World) (st : Store) :
    List (String × String) → Option String
  | [] => none
  | (k, _) :: rest =>
    if w.getFault k = true ∨ storeGet st k = none then some k
    else checkSecrets w st rest

/-- Process exit: code 0 or non-zero with the fatal message. -/
inductive ExitStatus
  | ok
  | fail (msg : String)
deriving DecidableEq

/-- Error message of the degraded-mode check for a missing secret. -/
def missingMsg (k : String) : String :=
  "secret " ++ k ++ " does not exist"

/-- The part of `main` after configuration (lines 36–52): if the token file
is unreadable, run `checkSecrets` and exit non-zero on its error, else exit 0
without touching vault; with a token, run `synchronize` and exit non-zero
exactly when it returns an error. -/
def mainRun (tokenOk : Bool) (w : World) (secrets : List (String × String))
    (st : Store) : ExitStatus × Store :=
  if tokenOk then
    let r := synchronize w secrets st
    match r.outcome with
    | .fatal _ => (.fail "failed to synchronize secrets", r.store)
    | _ => (.ok, r.store)
  else
    match checkSecrets w st secrets with
    | some k => (.fail (missingMsg k), st)
    | none => (.ok, st)

/-- Go `strings.Split` on a one-character separator, over the character
list: always returns at least one (possibly empty) piece, and splitting the
empty string yields one empty piece. -/
def splitListChar (sep : Char) : List Char → List (List Char)
  | [] => [[]]
  | c :: rest =>
    match splitListChar sep rest with
    | [] => [[c]]
    | t :: ts => if c = sep then [] :: t :: ts else (c :: t) :: ts

/-- Go `strings.Split s (String.singleton sep)` on strings. -/
def goSplit (sep : Char) (s : String) : List String :=
  (splitListChar sep s.data).map (fun l => ⟨l⟩)

/-- Go `path.Base`: "." for the empty path, trailing slashes stripped, "/"
if only slashes remain, else everything after the last slash. -/
def pathBase (p : String) : String :=
  if p.data.isEmpty then "."
  else
    let l := (p.data.reverse.dropWhile (fun c => c = '/')).reverse
    if l.isEmpty then "/"
    else ⟨(l.reverse.takeWhile (fun c => c ≠ '/')).reverse⟩

/-- Body of the parsing loop of `newFromEnvironment` for one non-empty item
(lines 73–78): split on ':', the value is the first piece (the vault path),
the key is the second piece when present and `path.Base` of the first piece
otherwise.  Returns (key, value). -/
def tokenKV (item : String) : String × String :=
  match goSplit ':' item with
  | s0 :: s1 :: _ => (s1, s0)
  | [s0] => (pathBase s0, s0)
  | [] => (pathBase "", "")

/-- The parsing loop of `newFromEnvironment` (lines 69–79): split the
`VAULT_SECRETS` value on ',', skip empty items, and write each item's
(key, value) into the map — a later item with the same key overwrites. -/
def parseSecrets (input : String) : SMap :=
  (goSplit ',' input).foldl
    (fun m item =>
      if item.length = 0 then m
      else setKV m (tokenKV item).1 (tokenKV item).2)
    []

/-- Configuration error message for an empty mapping. -/
def noSecretsMsg : String := "no secrets to synchronize - check VAULT_SECRETS"

/-- The secrets-parsing part of `newFromEnvironment` (lines 68–82): build
the mapping, fail when it is empty. -/
def newFromEnvironment (input : String) : Except String SMap :=
  let m := parseSecrets input
  if m.isEmpty then .error noSecretsMsg else .ok m

example : parseSecrets "db/creds:app-db,db/creds:app-db-2" =
    [("app-db", "db/creds"), ("app-db-2", "db/creds")] := by decide

example : parseSecrets "db/creds,x:a,,y/z" =
    [("creds", "db/creds"), ("a", "x"), ("z", "y/z")] := by decide

/-! ## Helper lemmas on maps and stores -/

theorem lookupKV_setKV_self (m : SMap) (k v : String) :
    lookupKV (setKV m k v) k = some v := by
  induction m with
  | nil => simp [setKV, lookupKV]
  | cons p rest ih =>
    obtain ⟨k', v'⟩ := p
    by_cases h : k' = k <;> simp [setKV, lookupKV, h, ih]

/-- Shape invariant of the shared `annotations` map of `synchronize`: it is
created empty and every write targets the single key `vaultMarker`, so
it is always empty or a singleton at that key. -/
def annOK (ann : SMap) : Prop :=
  ann = [] ∨ ∃ x, ann = [(vaultMarker, x)]

theorem setKV_annOK {ann : SMap} (h : annOK ann) (v : String) :
    setKV ann vaultMarker v = [(vaultMarker, v)] := by
  rcases h with h | ⟨x, h⟩ <;> subst h <;> simp [setKV]

/-- The object `synchronize` writes for the entry `(k, v)` once the shared
annotations map satisfies `annOK`: name `k`, the fetched payload, and the
singleton annotation recording `v`. -/
def mkSecret (w : World) (k v : String) : KSecret :=
  ⟨k, (w.remote v).getD [], [(vaultMarker, v)]⟩

theorem isManaged_mkSecret (w : World) (k v : String) :
    isManaged (mkSecret w k v) = true := by
  simp [isManaged, mkSecret, lookupKV, vaultMarker]

theorem storeGet_eq_some_of_mem {st : Store} {s : KSecret}
    (hnd : (st.map (fun t => t.name)).Nodup) (hmem : s ∈ st) :
    storeGet st s.name = some s := by
  induction st with
  | nil => cases hmem
  | cons t rest ih =>
    simp only [List.map_cons, List.nodup_cons] at hnd
    rcases List.mem_cons.mp hmem with h | h
    · subst h; simp [storeGet, List.find?]
    · have hne : t.name ≠ s.name := fun he => hnd.1 (he ▸ List.mem_map_of_mem _ h)
      simp only [storeGet] at ih ⊢
      rw [List.find?_cons_of_neg _ (by simpa using hne)]
      exact ih hnd.2 h

theorem mem_of_storeGet_eq_some {st : Store} {n : String} {s : KSecret}
    (h : storeGet st n = some s) : s ∈ st ∧ s.name = n := by
  induction st with
  | nil => simp [storeGet, List.find?] at h
  | cons t rest ih =>
    simp only [storeGet] at h ih
    by_cases he : t.name = n
    · rw [List.find?_cons_of_pos _ (by simpa using he)] at h
      cases h; exact ⟨List.mem_cons_self .., he⟩
    · rw [List.find?_cons_of_neg _ (by simpa using he)] at h
      obtain ⟨h1, h2⟩ := ih h
      exact ⟨List.mem_cons_of_mem _ h1, h2⟩

theorem storeGet_eq_none_iff {st : Store} {n : String} :
    storeGet st n = none ↔ ∀ s ∈ st, s.name ≠ n := by
  simp [storeGet, List.find?_eq_none]

/-! ## Lemmas on one loop iteration -/

theorem syncStep_fetch_err {w : World} {ann : SMap} {st : Store}
    {k v : String} (h : w.remote v = none) :
    syncStep w ann st k v = .error (.remoteFetch v) := by
  simp [syncStep, h]

theorem syncStep_create {w : World} {ann : SMap} {st : Store} {k v : String}
    {payload : SMap} (hr : w.remote v = some payload)
    (hg : w.getFault k = false) (hget : storeGet st k = none)
    (hc : w.createFault k = false) :
    syncStep w ann st k v =
      .ok (setKV ann vaultMarker v,
           st ++ [⟨k, payload, setKV ann vaultMarker v⟩],
           ⟨k, payload, setKV ann vaultMarker v⟩, true) := by
  simp [syncStep, hr, hg, hget, hc]

theorem syncStep_update {w : World} {ann : SMap} {st : Store} {k v : String}
    {payload : SMap} {s : KSecret} (hr : w.remote v = some payload)
    (hget : storeGet st k = some s) (hu : w.updateFault k = false) :
    syncStep w ann st k v =
      .ok (setKV ann vaultMarker v,
           st.map (fun t => if t.name = k
                            then ⟨k, payload, setKV ann vaultMarker v⟩
                            else t),
           ⟨k, payload, setKV ann vaultMarker v⟩, false) := by
  simp [syncStep, hr, hget, hu]

/-- Characterization of a successful loop iteration. -/
theorem syncStep_ok {w : World} {ann : SMap} {st : Store} {k v : String}
    {ann' : SMap} {st' : Store} {secret : KSecret} {created : Bool}
    (h : syncStep w ann st k v = .ok (ann', st', secret, created)) :
    ∃ payload, w.remote v = some payload ∧
      ann' = setKV ann vaultMarker v ∧
      secret = ⟨k, payload, ann'⟩ ∧
      ((created = true ∧ storeGet st k = none ∧ st' = st ++ [secret]) ∨
       (created = false ∧ (storeGet st k).isSome ∧
          st' = st.map (fun t => if t.name = k then secret else t))) := by
  simp only [syncStep] at h
  split at h
  · cases h
  next payload hr =>
    split at h
    · split at h
      · cases h
      · cases h
        exact ⟨payload, hr, rfl, rfl,
          Or.inl ⟨rfl, by tauto, rfl⟩⟩
    next hc =>
      split at h
      · cases h
      next hu =>
        cases h
        push_neg at hu
        exact ⟨payload, hr, rfl, rfl,
          Or.inr ⟨rfl, Option.isSome_iff_ne_none.mpr hu.2, rfl⟩⟩

/-- The annotations of the object written by a successful iteration carry
the marker. -/
theorem syncStep_written_managed {w : World} {ann : SMap} {st : Store}
    {k v : String} {ann' : SMap} {st' : Store} {secret : KSecret}
    {created : Bool}
    (h : syncStep w ann st k v = .ok (ann', st', secret, created)) :
    secret.name = k ∧ isManaged secret = true := by
  obtain ⟨payload, _, hann, hsec, _⟩ := syncStep_ok h
  subst hsec
  exact ⟨rfl, by simp [isManaged, hann, lookupKV_setKV_self]⟩

/-- A successful iteration preserves the presence of a managed object of a
given name (the object may have been overwritten, but only by a managed
one of the same name). -/
theorem syncStep_preserves_managed {w : World} {ann : SMap} {st : Store}
    {k' v' : String} {ann' : SMap} {st' : Store} {secret : KSecret}
    {created : Bool} {k : String}
    (h : syncStep w ann st k' v' = .ok (ann', st', secret, created))
    (hex : ∃ s ∈ st, s.name = k ∧ isManaged s = true) :
    ∃ s ∈ st', s.name = k ∧ isManaged s = true := by
  obtain ⟨s, hs, hname, hm⟩ := hex
  obtain ⟨hsname, hsm⟩ := syncStep_written_managed h
  obtain ⟨payload, _, _, _, hcase | hcase⟩ := syncStep_ok h
  · exact ⟨s, by simp [hcase.2.2, hs], hname, hm⟩
  · rw [hcase.2.2]
    by_cases he : s.name = k'
    · exact ⟨secret, by
        refine List.mem_map.mpr ⟨s, hs, ?_⟩
        simp [he], by rw [hsname, ← he, hname], hsm⟩
    · exact ⟨s, by
        refine List.mem_map.mpr ⟨s, hs, ?_⟩
        simp [he], hname, hm⟩

/-- A successful iteration for the entry `(k, v)` leaves a managed object
named `k` in the store. -/
theorem syncStep_establishes_managed {w : World} {ann : SMap} {st : Store}
    {k v : String} {ann' : SMap} {st' : Store} {secret : KSecret}
    {created : Bool}
    (h : syncStep w ann st k v = .ok (ann', st', secret, created)) :
    ∃ s ∈ st', s.name = k ∧ isManaged s = true := by
  obtain ⟨hsname, hsm⟩ := syncStep_written_managed h
  obtain ⟨payload, _, _, _, hcase | hcase⟩ := syncStep_ok h
  · exact ⟨secret, by simp [hcase.2.2], hsname, hsm⟩
  · obtain ⟨s0, hs0⟩ := Option.isSome_iff_exists.mp hcase.2.1
    obtain ⟨hmem, hname0⟩ := mem_of_storeGet_eq_some hs0
    refine ⟨secret, ?_, hsname, hsm⟩
    rw [hcase.2.2]
    exact List.mem_map.mpr ⟨s0, hmem, by simp [hname0]⟩

/-! ## Lemmas on the create/update loop -/

theorem syncLoop_preserves_managed {w : World} {k : String}
    (secrets : List (String × String)) (ann : SMap) (st : Store)
    (hex : ∃ s ∈ st, s.name = k ∧ isManaged s = true) :
    ∃ s ∈ (syncLoop w ann st secrets).store, s.name = k ∧ isManaged s = true := by
  induction secrets generalizing ann st with
  | nil => exact hex
  | cons kv rest ih =>
    obtain ⟨k', v'⟩ := kv
    simp only [syncLoop]
    cases hs : syncStep w ann st k' v' with
    | error e => exact hex
    | ok out =>
      obtain ⟨ann', st', secret, created⟩ := out
      exact ih ann' st' (syncStep_preserves_managed hs hex)

/-- If the loop finished without error, every desired name has a managed
object in the resulting store. -/
theorem syncLoop_covers {w : World} (secrets : List (String × String))
    (ann : SMap) (st : Store)
    (herr : (syncLoop w ann st secrets).err = none) :
    ∀ kv ∈ secrets,
      ∃ s ∈ (syncLoop w ann st secrets).store,
        s.name = kv.1 ∧ isManaged s = true := by
  induction secrets generalizing ann st with
  | nil => intro kv h; cases h
  | cons kv0 rest ih =>
    obtain ⟨k', v'⟩ := kv0
    intro kv hkv
    simp only [syncLoop] at herr ⊢
    cases hs : syncStep w ann st k' v' with
    | error e => rw [hs] at herr; cases herr
    | ok out =>
      obtain ⟨ann', st', secret, created⟩ := out
      rw [hs] at herr
      dsimp only at herr ⊢
      rcases List.mem_cons.mp hkv with h | h
      · subst h
        exact syncLoop_preserves_managed rest ann' st'
          (syncStep_establishes_managed hs)
      · exact ih ann' st' herr kv h

/-- Composing the loop over an append, when the first part succeeds. -/
theorem syncLoop_append (w : World) (ann : SMap) (st : Store)
    (xs ys : List (String × String))
    (h : (syncLoop w ann st xs).err = none) :
    syncLoop w ann st (xs ++ ys) =
      ⟨(syncLoop w (syncLoop w ann st xs).ann (syncLoop w ann st xs).store ys).err,
       (syncLoop w (syncLoop w ann st xs).ann (syncLoop w ann st xs).store ys).ann,
       (syncLoop w (syncLoop w ann st xs).ann (syncLoop w ann st xs).store ys).store,
       (syncLoop w ann st xs).created ++
         (syncLoop w (syncLoop w ann st xs).ann (syncLoop w ann st xs).store ys).created,
       (syncLoop w ann st xs).updated ++
         (syncLoop w (syncLoop w ann st xs).ann (syncLoop w ann st xs).store ys).updated,
       (syncLoop w ann st xs).writes ++
         (syncLoop w (syncLoop w ann st xs).ann (syncLoop w ann st xs).store ys).writes,
       (syncLoop w ann st xs).annAtIterStart ++
         (syncLoop w (syncLoop w ann st xs).ann (syncLoop w ann st xs).store ys).annAtIterStart⟩ := by
  induction xs generalizing ann st with
  | nil => simp [syncLoop]
  | cons kv rest ih =>
    obtain ⟨k', v'⟩ := kv
    simp only [syncLoop, List.cons_append] at h ⊢
    cases hs : syncStep w ann st k' v' with
    | error e => rw [hs] at h; cases h
    | ok out =>
      obtain ⟨ann', st', secret, created⟩ := out
      rw [hs] at h
      dsimp only at h ⊢
      simp only [List.append_eq]
      rw [ih ann' st' h]
      simp

/-! ## Lemmas on the deletion phase -/

theorem cleanup_store_sub (w : World) (desired : List (String × String))
    (st : Store) : ∀ s ∈ (cleanup w desired st).store, s ∈ st := by
  induction st with
  | nil => intro s h; cases h
  | cons t rest ih =>
    intro s h
    simp only [cleanup] at h
    split at h
    · rcases List.mem_cons.mp h with h | h
      · exact h ▸ List.mem_cons_self ..
      · exact List.mem_cons_of_mem _ (ih s h)
    · split at h
      · rcases List.mem_cons.mp h with h | h
        · exact h ▸ List.mem_cons_self ..
        · exact List.mem_cons_of_mem _ (ih s h)
      · split at h
        · rcases List.mem_cons.mp h with h | h
          · exact h ▸ List.mem_cons_self ..
          · exact List.mem_cons_of_mem _ (ih s h)
        · exact List.mem_cons_of_mem _ (ih s h)

/-- An object that is unmanaged, or whose name is desired, survives the
deletion phase. -/
theorem cleanup_keeps {w : World} {desired : List (String × String)}
    {st : Store} {s : KSecret} (hs : s ∈ st)
    (h : isManaged s = false ∨ desired.any (fun kv => kv.1 = s.name) = true) :
    s ∈ (cleanup w desired st).store := by
  induction st with
  | nil => cases hs
  | cons t rest ih =>
    simp only [cleanup]
    rcases List.mem_cons.mp hs with he | hmem
    · subst he
      rcases h with h | h
      · rw [h]; exact List.mem_cons_self ..
      · rw [h]
        split
        · exact List.mem_cons_self ..
        · simp only [if_true]
          exact List.mem_cons_self ..
    · have := ih hmem
      split
      · exact List.mem_cons_of_mem _ this
      · split
        · exact List.mem_cons_of_mem _ this
        · split
          · exact List.mem_cons_of_mem _ this
          · exact this

/-- A managed object that survives the deletion phase is desired, unless its
deletion failed. -/
theorem cleanup_managed_kept {w : World} {desired : List (String × String)}
    {st : Store} {s : KSecret}
    (hs : s ∈ (cleanup w desired st).store) (hm : isManaged s = true) :
    desired.any (fun kv => kv.1 = s.name) = true ∨
      s.name ∈ (cleanup w desired st).deleteFailed := by
  induction st with
  | nil => cases hs
  | cons t rest ih =>
    simp only [cleanup] at hs ⊢
    by_cases h1 : isManaged t = false
    · rw [if_pos h1] at hs ⊢
      rcases List.mem_cons.mp hs with he | hmem
      · rw [he, h1] at hm; cases hm
      · exact ih hmem
    · rw [if_neg h1] at hs ⊢
      by_cases h2 : desired.any (fun kv => kv.1 = t.name) = true
      · rw [if_pos h2] at hs ⊢
        rcases List.mem_cons.mp hs with he | hmem
        · exact Or.inl (by rw [he]; exact h2)
        · exact ih hmem
      · rw [if_neg h2] at hs ⊢
        by_cases h3 : w.deleteFault t.name = true
        · rw [if_pos h3] at hs ⊢
          rcases List.mem_cons.mp hs with he | hmem
          · refine Or.inr ?_
            rw [he]
            exact List.mem_cons_self ..
          · rcases ih hmem with h | h
            · exact Or.inl h
            · exact Or.inr (List.mem_cons_of_mem _ h)
        · rw [if_neg h3] at hs ⊢
          exact ih hs

/-- Every deleted name belonged to a managed, non-desired object of the
store. -/
theorem cleanup_deleted_char (w : World) (desired : List (String × String))
    (st : Store) :
    ∀ n ∈ (cleanup w desired st).deleted,
      ∃ s ∈ st, s.name = n ∧ isManaged s = true ∧
        desired.any (fun kv => kv.1 = n) = false := by
  induction st with
  | nil => intro n h; cases h
  | cons t rest ih =>
    intro n h
    simp only [cleanup] at h
    by_cases h1 : isManaged t = false
    · rw [if_pos h1] at h
      obtain ⟨s, hs1, hs2⟩ := ih n h
      exact ⟨s, List.mem_cons_of_mem _ hs1, hs2⟩
    · rw [if_neg h1] at h
      by_cases h2 : desired.any (fun kv => kv.1 = t.name) = true
      · rw [if_pos h2] at h
        obtain ⟨s, hs1, hs2⟩ := ih n h
        exact ⟨s, List.mem_cons_of_mem _ hs1, hs2⟩
      · rw [if_neg h2] at h
        by_cases h3 : w.deleteFault t.name = true
        · rw [if_pos h3] at h
          obtain ⟨s, hs1, hs2⟩ := ih n h
          exact ⟨s, List.mem_cons_of_mem _ hs1, hs2⟩
        · rw [if_neg h3] at h
          rcases List.mem_cons.mp h with he | hmem
          · subst he
            exact ⟨t, List.mem_cons_self .., rfl, by simpa using h1,
              Bool.eq_false_iff.mpr h2⟩
          · obtain ⟨s, hs1, hs2⟩ := ih n hmem
            exact ⟨s, List.mem_cons_of_mem _ hs1, hs2⟩

/-- Every managed, non-desired object is attempted: it ends up deleted or
among the failed deletions, independently of other objects' outcomes. -/
theorem cleanup_attempts {w : World} {desired : List (String × String)}
    {st : Store} {s : KSecret} (hs : s ∈ st) (hm : isManaged s = true)
    (hd : desired.any (fun kv => kv.1 = s.name) = false) :
    s.name ∈ (cleanup w desired st).deleted ∨
      s.name ∈ (cleanup w desired st).deleteFailed := by
  induction st with
  | nil => cases hs
  | cons t rest ih =>
    simp only [cleanup]
    rcases List.mem_cons.mp hs with he | hmem
    · subst he
      rw [if_neg (by simp [hm]), if_neg (by simp [hd])]
      by_cases h3 : w.deleteFault s.name = true
      · rw [if_pos h3]
        exact Or.inr (List.mem_cons_self ..)
      · rw [if_neg h3]
        exact Or.inl (List.mem_cons_self ..)
    · have hr := ih hmem
      by_cases h1 : isManaged t = false
      · rw [if_pos h1]
        exact hr
      · rw [if_neg h1]
        by_cases h2 : desired.any (fun kv => kv.1 = t.name) = true
        · rw [if_pos h2]
          exact hr
        · rw [if_neg h2]
          by_cases h3 : w.deleteFault t.name = true
          · rw [if_pos h3]
            rcases hr with h | h
            · exact Or.inl h
            · exact Or.inr (List.mem_cons_of_mem _ h)
          · rw [if_neg h3]
            rcases hr with h | h
            · exact Or.inl (List.mem_cons_of_mem _ h)
            · exact Or.inr h

/-! ## Unfoldings of `synchronize` -/

theorem synchronize_fatal {w : World} {secrets : List (String × String)}
    {st : Store} {e : SyncError}
    (herr : (syncLoop w [] st secrets).err = some e) :
    synchronize w secrets st =
      ⟨.fatal e, syncLoop w [] st secrets, [], [],
       (syncLoop w [] st secrets).store⟩ := by
  simp only [synchronize]
  rw [herr]

theorem synchronize_listFail {w : World} {secrets : List (String × String)}
    {st : Store} (herr : (syncLoop w [] st secrets).err = none)
    (hl : w.listFault = true) :
    synchronize w secrets st =
      ⟨.cleanupSkipped, syncLoop w [] st secrets, [], [],
       (syncLoop w [] st secrets).store⟩ := by
  simp only [synchronize]
  rw [herr, hl]
  rfl

theorem synchronize_ok {w : World} {secrets : List (String × String)}
    {st : Store} (herr : (syncLoop w [] st secrets).err = none)
    (hl : w.listFault = false) :
    synchronize w secrets st =
      ⟨.success, syncLoop w [] st secrets,
       (cleanup w secrets (syncLoop w [] st secrets).store).deleted,
       (cleanup w secrets (syncLoop w [] st secrets).store).deleteFailed,
       (cleanup w secrets (syncLoop w [] st secrets).store).store⟩ := by
  simp only [synchronize]
  rw [herr, hl]
  rfl

theorem mem_managedNames {st : Store} {n : String} :
    n ∈ managedNames st ↔ ∃ s ∈ st, isManaged s = true ∧ s.name = n := by
  simp [managedNames, List.mem_map, List.mem_filter, and_assoc]

/-! ## Concrete fixtures used by the witnesses -/

def exWorld : World :=
  ⟨fun s => if s = "db/creds" then some [("user", "alice")] else none,
   fun _ => false, fun _ => false, fun _ => false, fun _ => false, false⟩

def exSecrets : List (String × String) := [("app-db", "db/creds")]

def exStore : Store :=
  [⟨"app-db", [("user", "bob")], [(vaultMarker, "db/creds")]⟩,
   ⟨"plain", [], []⟩,
   ⟨"stale", [], [(vaultMarker, "old/path")]⟩]

def exWorldDelFail : World :=
  ⟨fun s => if s = "db/creds" then some [("user", "alice")] else none,
   fun _ => false, fun _ => false, fun _ => false,
   fun n => n == "stale", false⟩

/-! ## Claim theorems -/

/-- C1 (Convergence): after a run of `synchronize` in which every desired
entry was created or updated (the loop returned no error), the listing
succeeded and every cleanup deletion succeeded, the set of names of local
secrets carrying the marker annotation equals exactly the set of desired
local names. -/
theorem sync_convergence (w : World) (secrets : List (String × String))
    (st : Store) (herr : (syncLoop w [] st secrets).err = none)
    (hlist : w.listFault = false)
    (hdel : (synchronize w secrets st).deleteFailed = []) :
    ∀ n, n ∈ managedNames (synchronize w secrets st).store ↔
      n ∈ secrets.map (fun kv => kv.1) := by
  rw [synchronize_ok herr hlist] at hdel ⊢
  dsimp only at hdel ⊢
  intro n
  constructor
  · intro hn
    obtain ⟨s, hsmem, hsm, hsn⟩ := mem_managedNames.mp hn
    rcases cleanup_managed_kept hsmem hsm with h | h
    · obtain ⟨kv, hkv, he⟩ := List.any_eq_true.mp h
      exact List.mem_map.mpr ⟨kv, hkv, by rw [← hsn]; exact of_decide_eq_true he⟩
    · rw [hdel] at h
      cases h
  · intro hn
    obtain ⟨kv, hkv, he⟩ := List.mem_map.mp hn
    obtain ⟨s, hsmem, hsn, hsm⟩ :=
      syncLoop_covers secrets [] st herr kv hkv
    refine mem_managedNames.mpr ⟨s, ?_, hsm, by rw [hsn, he]⟩
    refine cleanup_keeps hsmem (Or.inr ?_)
    exact List.any_eq_true.mpr ⟨kv, hkv, decide_eq_true (by rw [hsn])⟩

theorem sync_convergence_witness :
    (syncLoop exWorld [] exStore exSecrets).err = none ∧
    exWorld.listFault = false ∧
    (synchronize exWorld exSecrets exStore).deleteFailed = [] ∧
    ∀ n, n ∈ managedNames (synchronize exWorld exSecrets exStore).store ↔
      n ∈ exSecrets.map (fun kv => kv.1) :=
  ⟨by decide, by decide, by decide,
   sync_convergence exWorld exSecrets exStore (by decide) (by decide)
     (by decide)⟩

/-- C2 (Remote fetch failure aborts the run): if the entries before `(k, v)`
all applied without error and the vault read for `v` fails, `synchronize`
returns the fetch error: the already-applied entries remain applied (the
store is exactly the store after the successful prefix), the writes, creates
and updates are exactly those of the prefix (later entries never attempted),
and the deletion phase never executes. -/
theorem remote_fetch_aborts_run (w : World) (st : Store)
    (pre post : List (String × String)) (k v : String)
    (hpre : (syncLoop w [] st pre).err = none)
    (hv : w.remote v = none) :
    synchronize w (pre ++ (k, v) :: post) st =
      ⟨.fatal (.remoteFetch v),
       ⟨some (.remoteFetch v), (syncLoop w [] st pre).ann,
        (syncLoop w [] st pre).store, (syncLoop w [] st pre).created,
        (syncLoop w [] st pre).updated, (syncLoop w [] st pre).writes,
        (syncLoop w [] st pre).annAtIterStart ++ [(syncLoop w [] st pre).ann]⟩,
       [], [], (syncLoop w [] st pre).store⟩ := by
  have hM : syncLoop w (syncLoop w [] st pre).ann (syncLoop w [] st pre).store
      ((k, v) :: post) =
      ⟨some (.remoteFetch v), (syncLoop w [] st pre).ann,
       (syncLoop w [] st pre).store, [], [], [],
       [(syncLoop w [] st pre).ann]⟩ := by
    simp only [syncLoop]
    rw [@syncStep_fetch_err w (syncLoop w [] st pre).ann
      (syncLoop w [] st pre).store k v hv]
  have hL := syncLoop_append w [] st pre ((k, v) :: post) hpre
  rw [hM] at hL
  simp only [synchronize, hL]
  simp

theorem remote_fetch_aborts_run_witness :
    (syncLoop exWorld [] exStore exSecrets).err = none ∧
    exWorld.remote "gone/path" = none ∧
    synchronize exWorld
        (exSecrets ++ ("app-x", "gone/path") :: [("app-y", "db/creds")])
        exStore =
      ⟨.fatal (.remoteFetch "gone/path"),
       ⟨some (.remoteFetch "gone/path"),
        (syncLoop exWorld [] exStore exSecrets).ann,
        (syncLoop exWorld [] exStore exSecrets).store,
        (syncLoop exWorld [] exStore exSecrets).created,
        (syncLoop exWorld [] exStore exSecrets).updated,
        (syncLoop exWorld [] exStore exSecrets).writes,
        (syncLoop exWorld [] exStore exSecrets).annAtIterStart ++
          [(syncLoop exWorld [] exStore exSecrets).ann]⟩,
       [], [], (syncLoop exWorld [] exStore exSecrets).store⟩ :=
  ⟨by decide, by decide,
   remote_fetch_aborts_run exWorld exStore exSecrets
     [("app-y", "db/creds")] "app-x" "gone/path" (by decide) (by decide)⟩

/-- C3 (Deletion scoping): during the cleanup phase an object that is
unmanaged or whose name is a desired key always survives, and every deleted
name belonged to an object that carried the marker annotation and whose
name was not a desired key. -/
theorem delete_scoped_to_managed (w : World)
    (desired : List (String × String)) (st : Store) (s : KSecret)
    (hs : s ∈ st)
    (h : isManaged s = false ∨ desired.any (fun kv => kv.1 = s.name) = true) :
    s ∈ (cleanup w desired st).store ∧
      ∀ n ∈ (cleanup w desired st).deleted,
        ∃ t ∈ st, t.name = n ∧ isManaged t = true ∧
          desired.any (fun kv => kv.1 = n) = false :=
  ⟨cleanup_keeps hs h, cleanup_deleted_char w desired st⟩

theorem delete_scoped_to_managed_witness :
    ((⟨"plain", [], []⟩ : KSecret) ∈ exStore ∧
      isManaged ⟨"plain", [], []⟩ = false) ∧
    ((⟨"plain", [], []⟩ : KSecret) ∈
        (cleanup exWorld exSecrets exStore).store ∧
      ∀ n ∈ (cleanup exWorld exSecrets exStore).deleted,
        ∃ t ∈ exStore, t.name = n ∧ isManaged t = true ∧
          exSecrets.any (fun kv => kv.1 = n) = false) :=
  ⟨⟨by decide, by decide⟩,
   delete_scoped_to_managed exWorld exSecrets exStore ⟨"plain", [], []⟩
     (by decide) (Or.inl (by decide))⟩

/-- C4 (Cleanup failures are non-fatal): once every desired entry was
created or updated, a failing List makes `synchronize` exit successfully
with the cleanup skipped and the store untouched; with a successful List the
run succeeds whatever the deletion faults are, and every obsolete managed
object gets its own deletion attempt (it ends up deleted or merely reported
failed); in both cases the process exits 0. -/
theorem cleanup_failures_nonfatal (w : World)
    (secrets : List (String × String)) (st : Store)
    (herr : (syncLoop w [] st secrets).err = none) :
    (w.listFault = true →
      (synchronize w secrets st).outcome = .cleanupSkipped ∧
      (synchronize w secrets st).store = (syncLoop w [] st secrets).store ∧
      (synchronize w secrets st).deleted = []) ∧
    (w.listFault = false →
      (synchronize w secrets st).outcome = .success ∧
      ∀ s ∈ (syncLoop w [] st secrets).store, isManaged s = true →
        secrets.any (fun kv => kv.1 = s.name) = false →
        s.name ∈ (synchronize w secrets st).deleted ∨
          s.name ∈ (synchronize w secrets st).deleteFailed) ∧
    (mainRun true w secrets st).1 = .ok := by
  cases hl : w.listFault with
  | true =>
    rw [synchronize_listFail herr hl]
    refine ⟨fun _ => ⟨rfl, rfl, rfl⟩, fun h => absurd h (by decide), ?_⟩
    simp [mainRun, synchronize_listFail herr hl]
  | false =>
    rw [synchronize_ok herr hl]
    refine ⟨fun h => absurd h (by decide), fun _ => ⟨rfl, ?_⟩, ?_⟩
    · intro s hsmem hsm hnd
      exact cleanup_attempts hsmem hsm hnd
    · simp [mainRun, synchronize_ok herr hl]

theorem cleanup_failures_nonfatal_witness :
    (syncLoop exWorldDelFail [] exStore exSecrets).err = none ∧
    ((exWorldDelFail.listFault = true →
      (synchronize exWorldDelFail exSecrets exStore).outcome =
        .cleanupSkipped ∧
      (synchronize exWorldDelFail exSecrets exStore).store =
        (syncLoop exWorldDelFail [] exStore exSecrets).store ∧
      (synchronize exWorldDelFail exSecrets exStore).deleted = []) ∧
    (exWorldDelFail.listFault = false →
      (synchronize exWorldDelFail exSecrets exStore).outcome = .success ∧
      ∀ s ∈ (syncLoop exWorldDelFail [] exStore exSecrets).store,
        isManaged s = true →
        exSecrets.any (fun kv => kv.1 = s.name) = false →
        s.name ∈ (synchronize exWorldDelFail exSecrets exStore).deleted ∨
          s.name ∈ (synchronize exWorldDelFail exSecrets exStore).deleteFailed) ∧
    (mainRun true exWorldDelFail exSecrets exStore).1 = .ok) :=
  ⟨by decide,
   cleanup_failures_nonfatal exWorldDelFail exSecrets exStore (by decide)⟩

/-! ## Lemmas on the degraded-mode check -/

theorem checkSecrets_getFault_only (w w' : World) (st : Store)
    (h : w'.getFault = w.getFault) :
    ∀ secrets, checkSecrets w' st secrets = checkSecrets w st secrets := by
  intro secrets
  induction secrets with
  | nil => rfl
  | cons kv rest ih =>
    obtain ⟨k, v⟩ := kv
    simp only [checkSecrets, h, ih]

theorem checkSecrets_none {w : World} {st : Store} :
    ∀ {secrets : List (String × String)},
    secrets.all (fun kv => !w.getFault kv.1) = true →
    secrets.all (fun kv => (storeGet st kv.1).isSome) = true →
    checkSecrets w st secrets = none := by
  intro secrets
  induction secrets with
  | nil => intro _ _; rfl
  | cons kv rest ih =>
    intro h1 h2
    obtain ⟨k, v⟩ := kv
    simp only [List.all_cons, Bool.and_eq_true] at h1 h2
    simp only [checkSecrets]
    have hneg : ¬(w.getFault k = true ∨ storeGet st k = none) := by
      rintro (h | h)
      · rw [h] at h1; exact Bool.noConfusion h1.1
      · rw [h] at h2; exact Bool.noConfusion h2.1
    rw [if_neg hneg]
    exact ih h1.2 h2.2

theorem checkSecrets_hit {w : World} {st : Store} {k v : String}
    (post : List (String × String)) :
    ∀ pre : List (String × String),
    pre.all (fun kv => !w.getFault kv.1 && (storeGet st kv.1).isSome) = true →
    (w.getFault k = true ∨ storeGet st k = none) →
    checkSecrets w st (pre ++ (k, v) :: post) = some k := by
  intro pre
  induction pre with
  | nil =>
    intro _ hcond
    simp only [List.nil_append, checkSecrets]
    rw [if_pos hcond]
  | cons kv rest ih =>
    intro hall hcond
    obtain ⟨k', v'⟩ := kv
    simp only [List.all_cons, Bool.and_eq_true] at hall
    simp only [List.cons_append, checkSecrets]
    have hneg : ¬(w.getFault k' = true ∨ storeGet st k' = none) := by
      rintro (h | h)
      · rw [h] at hall; exact Bool.noConfusion hall.1.1
      · rw [h] at hall; exact Bool.noConfusion hall.1.2
    rw [if_neg hneg]
    exact ih hall.2 hcond

def exWorldGetFault : World :=
  ⟨fun s => if s = "db/creds" then some [("user", "alice")] else none,
   fun n => n == "app-db", fun _ => false, fun _ => false, fun _ => false,
   false⟩

/-- C5 (Degraded mode): when the token file is unreadable and the local
existence queries answer reliably, the degraded path depends only on the
local store (never on the vault oracle); if every desired name exists
locally the process exits 0 with the store untouched, and if some name is
missing (the first such, in order) the process exits non-zero with the
message naming that entry. -/
theorem degraded_mode_check (w : World) (secrets : List (String × String))
    (st : Store)
    (hfault : secrets.all (fun kv => !w.getFault kv.1) = true) :
    (∀ w' : World, w'.getFault = w.getFault →
        mainRun false w' secrets st = mainRun false w secrets st) ∧
    (secrets.all (fun kv => (storeGet st kv.1).isSome) = true →
        mainRun false w secrets st = (.ok, st)) ∧
    (∀ pre k v post, secrets = pre ++ (k, v) :: post →
        pre.all (fun kv => (storeGet st kv.1).isSome) = true →
        storeGet st k = none →
        mainRun false w secrets st = (.fail (missingMsg k), st)) := by
  refine ⟨?_, ?_, ?_⟩
  · intro w' hw
    simp only [mainRun, Bool.false_eq_true, if_false]
    rw [checkSecrets_getFault_only w w' st hw]
  · intro hall
    simp only [mainRun, Bool.false_eq_true, if_false]
    rw [checkSecrets_none hfault hall]
  · intro pre k v post hsplit hpre hmiss
    subst hsplit
    simp only [mainRun, Bool.false_eq_true, if_false]
    have hpre' : pre.all
        (fun kv => !w.getFault kv.1 && (storeGet st kv.1).isSome) = true := by
      simp only [List.all_append] at hfault
      simp only [List.all_eq_true, Bool.and_eq_true] at hfault hpre ⊢
      exact fun kv hkv => ⟨hfault.1 kv hkv, hpre kv hkv⟩
    rw [checkSecrets_hit post pre hpre' (Or.inr hmiss)]

theorem degraded_mode_check_witness :
    exSecrets.all (fun kv => !exWorld.getFault kv.1) = true ∧
    ((∀ w' : World, w'.getFault = exWorld.getFault →
        mainRun false w' exSecrets exStore =
          mainRun false exWorld exSecrets exStore) ∧
    (exSecrets.all (fun kv => (storeGet exStore kv.1).isSome) = true →
        mainRun false exWorld exSecrets exStore = (.ok, exStore)) ∧
    (∀ pre k v post, exSecrets = pre ++ (k, v) :: post →
        pre.all (fun kv => (storeGet exStore kv.1).isSome) = true →
        storeGet exStore k = none →
        mainRun false exWorld exSecrets exStore =
          (.fail (missingMsg k), exStore))) :=
  ⟨by decide, degraded_mode_check exWorld exSecrets exStore (by decide)⟩

/-- C10 (Error conflation in the degraded check): a local Get that fails
for a reason other than absence — here a `getFault` on a name that does
exist in the store — is still reported as "secret k does not exist" and
makes the process exit non-zero, even though every desired secret exists
locally. -/
theorem check_error_conflation (w : World) (st : Store)
    (pre : List (String × String)) (k v : String)
    (post : List (String × String))
    (hpre : pre.all
      (fun kv => !w.getFault kv.1 && (storeGet st kv.1).isSome) = true)
    (hk : w.getFault k = true)
    (_hex : (storeGet st k).isSome = true) :
    mainRun false w (pre ++ (k, v) :: post) st =
      (.fail (missingMsg k), st) := by
  simp only [mainRun, Bool.false_eq_true, if_false]
  rw [checkSecrets_hit post pre hpre (Or.inl hk)]

theorem check_error_conflation_witness :
    exWorldGetFault.getFault "app-db" = true ∧
    (storeGet exStore "app-db").isSome = true ∧
    mainRun false exWorldGetFault ([] ++ ("app-db", "db/creds") :: []) exStore =
      (.fail (missingMsg "app-db"), exStore) :=
  ⟨by decide, by decide,
   check_error_conflation exWorldGetFault exStore [] "app-db" "db/creds" []
     (by decide) (by decide) (by decide)⟩

/-! ## Create-versus-update lemmas -/

/-- The object built for the entry `(k, v)` (lines 150–154): name `k`, the
converted payload, and the shared annotations map after setting the marker
to `v`. -/
def builtSecret (ann : SMap) (k v : String) (payload : SMap) : KSecret :=
  ⟨k, payload, setKV ann vaultMarker v⟩

theorem storeGet_map_replace {st : Store} {k : String} {snew : KSecret}
    (hname : snew.name = k) (hsome : (storeGet st k).isSome = true) :
    storeGet (st.map (fun t => if t.name = k then snew else t)) k =
      some snew := by
  induction st with
  | nil => simp [storeGet] at hsome
  | cons t rest ih =>
    by_cases h : t.name = k
    · simp only [List.map_cons, if_pos h, storeGet]
      rw [List.find?_cons_of_pos _ (by simp [hname])]
    · simp only [List.map_cons, if_neg h, storeGet] at ih ⊢
      rw [List.find?_cons_of_neg _ (by simp [h])]
      apply ih
      simp only [storeGet] at hsome
      rw [List.find?_cons_of_neg _ (by simp [h])] at hsome
      exact hsome

theorem syncLoop_head_err {w : World} {ann : SMap} {st : Store}
    {k v : String} {rest : List (String × String)} {e : SyncError}
    (h : syncStep w ann st k v = .error e) :
    syncLoop w ann st ((k, v) :: rest) = ⟨some e, ann, st, [], [], [], [ann]⟩ := by
  simp only [syncLoop, h]

/-- C7 (Create-vs-update policy): when the vault read for `v` succeeds,
a NotFound existence query leads to a Create of the freshly built object
(aborting on a create failure); any other outcome of the existence query
leads to an Update that replaces the stored object wholesale — afterwards
the object stored under `k` is exactly the new object, with old fields and
old tags gone, and objects of other names untouched — aborting on an update
failure; and a failing step makes the whole run fatal with that local-write
error. -/
theorem create_update_policy (w : World) (ann : SMap) (st : Store)
    (k v : String) (payload : SMap)
    (hr : w.remote v = some payload) :
    (storeGet st k = none → w.getFault k = false →
      (w.createFault k = false →
        syncStep w ann st k v =
          .ok (setKV ann vaultMarker v,
               st ++ [builtSecret ann k v payload],
               builtSecret ann k v payload, true)) ∧
      (w.createFault k = true →
        syncStep w ann st k v = .error (.localWrite k))) ∧
    (¬(w.getFault k = false ∧ storeGet st k = none) →
      (w.updateFault k = false → (storeGet st k).isSome = true →
        syncStep w ann st k v =
          .ok (setKV ann vaultMarker v,
               st.map (fun t => if t.name = k
                                then builtSecret ann k v payload else t),
               builtSecret ann k v payload, false) ∧
        storeGet (st.map (fun t => if t.name = k
                                   then builtSecret ann k v payload else t)) k =
          some (builtSecret ann k v payload) ∧
        ∀ t ∈ st, t.name ≠ k →
          t ∈ st.map (fun t' => if t'.name = k
                                then builtSecret ann k v payload else t')) ∧
      (w.updateFault k = true ∨ storeGet st k = none →
        syncStep w ann st k v = .error (.localWrite k))) ∧
    (∀ e rest, syncStep w [] st k v = .error e →
      (synchronize w ((k, v) :: rest) st).outcome = .fatal e) := by
  refine ⟨?_, ?_, ?_⟩
  · intro hget hg
    constructor
    · intro hc
      exact syncStep_create hr hg hget hc
    · intro hc
      simp [syncStep, hr, hg, hget, hc]
  · intro hno
    constructor
    · intro hu hsome
      obtain ⟨s, hs⟩ := Option.isSome_iff_exists.mp hsome
      refine ⟨syncStep_update hr hs hu, storeGet_map_replace rfl hsome, ?_⟩
      intro t ht hne
      exact List.mem_map.mpr ⟨t, ht, by simp [hne]⟩
    · intro hbad
      rcases hbad with hu | hget
      · by_cases hc : w.getFault k = false ∧ storeGet st k = none
        · exact absurd hc hno
        · simp [syncStep, hr, hc, hu]
      · have hgf : w.getFault k = true := by
          cases hgf : w.getFault k with
          | false => exact absurd ⟨hgf, hget⟩ hno
          | true => rfl
        simp [syncStep, hr, hget, hgf]
  · intro e rest hstep
    have hloop : (syncLoop w [] st ((k, v) :: rest)).err = some e := by
      rw [syncLoop_head_err hstep]
    rw [synchronize_fatal hloop]

theorem create_update_policy_witness :
    exWorld.remote "db/creds" = some [("user", "alice")] ∧
    ((storeGet exStore "app-db" = none → exWorld.getFault "app-db" = false →
      (exWorld.createFault "app-db" = false →
        syncStep exWorld [] exStore "app-db" "db/creds" =
          .ok (setKV [] vaultMarker "db/creds",
               exStore ++ [builtSecret [] "app-db" "db/creds" [("user", "alice")]],
               builtSecret [] "app-db" "db/creds" [("user", "alice")], true)) ∧
      (exWorld.createFault "app-db" = true →
        syncStep exWorld [] exStore "app-db" "db/creds" =
          .error (.localWrite "app-db"))) ∧
    (¬(exWorld.getFault "app-db" = false ∧ storeGet exStore "app-db" = none) →
      (exWorld.updateFault "app-db" = false →
        (storeGet exStore "app-db").isSome = true →
        syncStep exWorld [] exStore "app-db" "db/creds" =
          .ok (setKV [] vaultMarker "db/creds",
               exStore.map (fun t => if t.name = "app-db"
                 then builtSecret [] "app-db" "db/creds" [("user", "alice")]
                 else t),
               builtSecret [] "app-db" "db/creds" [("user", "alice")], false) ∧
        storeGet (exStore.map (fun t => if t.name = "app-db"
            then builtSecret [] "app-db" "db/creds" [("user", "alice")]
            else t)) "app-db" =
          some (builtSecret [] "app-db" "db/creds" [("user", "alice")]) ∧
        ∀ t ∈ exStore, t.name ≠ "app-db" →
          t ∈ exStore.map (fun t' => if t'.name = "app-db"
            then builtSecret [] "app-db" "db/creds" [("user", "alice")]
            else t')) ∧
      (exWorld.updateFault "app-db" = true ∨
          storeGet exStore "app-db" = none →
        syncStep exWorld [] exStore "app-db" "db/creds" =
          .error (.localWrite "app-db"))) ∧
    (∀ e rest, syncStep exWorld [] exStore "app-db" "db/creds" = .error e →
      (synchronize exWorld (("app-db", "db/creds") :: rest) exStore).outcome =
        .fatal e)) :=
  ⟨by decide,
   create_update_policy exWorld [] exStore "app-db" "db/creds"
     [("user", "alice")] (by decide)⟩

/-! ## The shared annotations container -/

theorem synchronize_loop (w : World) (secrets : List (String × String))
    (st : Store) :
    (synchronize w secrets st).loop = syncLoop w [] st secrets := by
  simp only [synchronize]
  cases h : (syncLoop w [] st secrets).err with
  | some e => rfl
  | none =>
    cases hl : w.listFault
    · rfl
    · rfl

theorem syncLoop_writes {w : World} :
    ∀ (secrets : List (String × String)) (ann : SMap) (st : Store),
    annOK ann → (syncLoop w ann st secrets).err = none →
    (syncLoop w ann st secrets).writes =
      secrets.map (fun kv => mkSecret w kv.1 kv.2) := by
  intro secrets
  induction secrets with
  | nil => intro ann st _ _; rfl
  | cons kv rest ih =>
    intro ann st hann herr
    obtain ⟨k, v⟩ := kv
    simp only [syncLoop] at herr ⊢
    cases hs : syncStep w ann st k v with
    | error e =>
      rw [hs] at herr
      dsimp only at herr
      cases herr
    | ok out =>
      obtain ⟨ann', st', secret, created⟩ := out
      rw [hs] at herr
      dsimp only at herr ⊢
      obtain ⟨payload, hpay, hann', hsec, _⟩ := syncStep_ok hs
      have hok' : annOK ann' := Or.inr ⟨v, by rw [hann']; exact setKV_annOK hann v⟩
      rw [ih ann' st' hok' herr]
      simp only [List.map_cons, List.cons.injEq]
      refine ⟨?_, trivial⟩
      rw [hsec, hann', setKV_annOK hann v]
      simp [mkSecret, hpay]

def exWorldTwo : World :=
  ⟨fun s => if s = "db/creds" then some [("user", "alice")]
            else if s = "svc/key" then some [("token", "t0")] else none,
   fun _ => false, fun _ => false, fun _ => false, fun _ => false, false⟩

def exSecretsTwo : List (String × String) :=
  [("app-db", "db/creds"), ("app-key", "svc/key")]

/-- C9 counterexample: the annotation container is NOT freshly constructed
per iteration.  In the source it is a single map created once before the
loop (line 136) and mutated each iteration; in this two-entry run the
container at the start of the second iteration still holds the first
entry's marker value instead of being empty. -/
theorem shared_annotations_counterexample :
    (synchronize exWorldTwo exSecretsTwo []).loop.annAtIterStart =
      [[], [(vaultMarker, "db/creds")]] ∧
    ¬ (∀ a ∈ (synchronize exWorldTwo exSecretsTwo []).loop.annAtIterStart,
        a = ([] : SMap)) := by
  constructor
  · decide
  · decide

/-- C9 amended: the tag container is one mutable map created before the
loop and carried across iterations; however, since every iteration
overwrites the single marker key before its write, the object written for
each entry carries exactly the singleton annotation set
`{vault-secret ↦ that entry's own sourceID}`, independent of any other
entry. -/
theorem fresh_tag_effect_amended (w : World)
    (secrets : List (String × String)) (st : Store)
    (herr : (syncLoop w [] st secrets).err = none) :
    (synchronize w secrets st).loop.writes =
      secrets.map (fun kv => mkSecret w kv.1 kv.2) ∧
    ∀ s ∈ (synchronize w secrets st).loop.writes, ∃ kv ∈ secrets,
      s.name = kv.1 ∧ s.annotations = [(vaultMarker, kv.2)] := by
  rw [synchronize_loop]
  have hw := syncLoop_writes secrets [] st (Or.inl rfl) herr
  refine ⟨hw, ?_⟩
  rw [hw]
  intro s hs
  obtain ⟨kv, hkv, he⟩ := List.mem_map.mp hs
  exact ⟨kv, hkv, by rw [← he]; rfl, by rw [← he]; rfl⟩

theorem fresh_tag_effect_amended_witness :
    (syncLoop exWorldTwo [] [] exSecretsTwo).err = none ∧
    ((synchronize exWorldTwo exSecretsTwo []).loop.writes =
      exSecretsTwo.map (fun kv => mkSecret exWorldTwo kv.1 kv.2) ∧
    ∀ s ∈ (synchronize exWorldTwo exSecretsTwo []).loop.writes,
      ∃ kv ∈ exSecretsTwo,
        s.name = kv.1 ∧ s.annotations = [(vaultMarker, kv.2)]) :=
  ⟨by decide, fresh_tag_effect_amended exWorldTwo exSecretsTwo [] (by decide)⟩

/-! ## Resolver lemmas -/

theorem lookupKV_setKV (m : SMap) (a b k : String) :
    lookupKV (setKV m a b) k = if a = k then some b else lookupKV m k := by
  induction m with
  | nil => simp [setKV, lookupKV]
  | cons p rest ih =>
    obtain ⟨a', b'⟩ := p
    simp only [setKV]
    by_cases h : a' = a
    · subst h
      simp only [if_pos rfl, lookupKV]
      by_cases h2 : a' = k <;> simp [h2]
    · simp only [if_neg h, lookupKV, ih]
      by_cases h2 : a' = k
      · subst h2
        rw [if_pos rfl, if_neg (fun he => h he.symm), if_pos rfl]
      · simp [h2]

theorem foldl_skip_empty (g : SMap → String → SMap) :
    ∀ (l : List String) (m : SMap),
    l.foldl (fun m item => if item.length = 0 then m else g m item) m =
      (l.filter (fun t => t.length ≠ 0)).foldl g m := by
  intro l
  induction l with
  | nil => intro m; rfl
  | cons t rest ih =>
    intro m
    by_cases h : t.length = 0
    · simp [List.foldl_cons, List.filter_cons, h, ih]
    · simp [List.foldl_cons, List.filter_cons, h, ih]

theorem lookupKV_foldl_setKV (k : String) :
    ∀ (ps : List (String × String)) (m : SMap),
    lookupKV (ps.foldl (fun m kv => setKV m kv.1 kv.2) m) k =
      match ps.reverse.findSome?
          (fun kv => if kv.1 = k then some kv.2 else none) with
      | some v => some v
      | none => lookupKV m k := by
  intro ps
  induction ps with
  | nil => intro m; rfl
  | cons p rest ih =>
    intro m
    simp only [List.foldl_cons, List.reverse_cons]
    rw [ih, List.findSome?_append]
    cases hfs : rest.reverse.findSome?
        (fun kv => if kv.1 = k then some kv.2 else none) with
    | some v => rfl
    | none =>
      rw [lookupKV_setKV]
      simp only [Option.none_or, List.findSome?]
      by_cases h : p.1 = k <;> simp [h]

theorem splitListChar_not_mem {sep : Char} :
    ∀ {l : List Char}, sep ∉ l → splitListChar sep l = [l] := by
  intro l
  induction l with
  | nil => intro _; rfl
  | cons c rest ih =>
    intro h
    have hc : ¬ c = sep := fun he => h (by rw [he]; exact List.mem_cons_self ..)
    simp only [splitListChar]
    rw [ih (fun hm => h (List.mem_cons_of_mem _ hm))]
    simp [hc]

theorem splitListChar_single_sep {sep : Char} :
    ∀ {l1 l2 : List Char}, sep ∉ l1 → sep ∉ l2 →
    splitListChar sep (l1 ++ sep :: l2) = [l1, l2] := by
  intro l1
  induction l1 with
  | nil =>
    intro l2 _ h2
    simp only [List.nil_append, splitListChar]
    rw [splitListChar_not_mem h2]
    simp
  | cons c rest ih =>
    intro l2 h1 h2
    have hc : ¬ c = sep := fun he => h1 (by rw [he]; exact List.mem_cons_self ..)
    simp only [List.cons_append, splitListChar]
    simp only [List.append_eq]
    rw [ih (fun hm => h1 (List.mem_cons_of_mem _ hm)) h2]
    simp [hc]

theorem tokenKV_no_colon {src : String} (h : ':' ∉ src.data) :
    tokenKV src = (pathBase src, src) := by
  simp only [tokenKV, goSplit, splitListChar_not_mem h]
  rfl

theorem tokenKV_with_colon {src loc : String} (h1 : ':' ∉ src.data)
    (h2 : ':' ∉ loc.data) :
    tokenKV (src ++ ":" ++ loc) = (loc, src) := by
  have hdata : (src ++ ":" ++ loc).data = src.data ++ ':' :: loc.data := by
    simp [String.data_append]
  simp only [tokenKV, goSplit, hdata, splitListChar_single_sep h1 h2]
  rfl

theorem newFromEnvironment_error_iff (input : String) :
    (∃ e, newFromEnvironment input = .error e) ↔ parseSecrets input = [] := by
  simp only [newFromEnvironment]
  by_cases h : (parseSecrets input).isEmpty
  · rw [if_pos h]
    simp [List.isEmpty_iff.mp h]
  · rw [if_neg h]
    constructor
    · rintro ⟨e, he⟩
      cases he
    · intro he
      exact absurd (by rw [he]; rfl) h

/-- C6 (Resolver contract): parsing skips empty tokens; the mapping's
lookup is last-wins over the remaining tokens, each token contributing the
key/value pair of `tokenKV`; a well-formed `sourceID:localName` token maps
localName to sourceID; a token without ':' maps the last path segment of
the sourceID to the sourceID; and `newFromEnvironment` fails exactly when
the resulting mapping is empty. -/
theorem resolver_contract (input k src loc : String)
    (h1 : ':' ∉ src.data) (h2 : ':' ∉ loc.data) :
    parseSecrets input =
      ((goSplit ',' input).filter (fun t => t.length ≠ 0)).foldl
        (fun m item => setKV m (tokenKV item).1 (tokenKV item).2) [] ∧
    lookupKV (parseSecrets input) k =
      (((goSplit ',' input).filter (fun t => t.length ≠ 0)).map tokenKV).reverse.findSome?
        (fun kv => if kv.1 = k then some kv.2 else none) ∧
    tokenKV (src ++ ":" ++ loc) = (loc, src) ∧
    tokenKV src = (pathBase src, src) ∧
    ((∃ e, newFromEnvironment input = .error e) ↔ parseSecrets input = []) := by
  have hskip : parseSecrets input =
      ((goSplit ',' input).filter (fun t => t.length ≠ 0)).foldl
        (fun m item => setKV m (tokenKV item).1 (tokenKV item).2) [] := by
    simp only [parseSecrets]
    exact foldl_skip_empty
      (fun m item => setKV m (tokenKV item).1 (tokenKV item).2)
      (goSplit ',' input) []
  refine ⟨hskip, ?_, tokenKV_with_colon h1 h2, tokenKV_no_colon h1,
    newFromEnvironment_error_iff input⟩
  rw [hskip]
  have hmap : ((goSplit ',' input).filter (fun t => t.length ≠ 0)).foldl
        (fun m item => setKV m (tokenKV item).1 (tokenKV item).2) [] =
      (((goSplit ',' input).filter (fun t => t.length ≠ 0)).map tokenKV).foldl
        (fun m kv => setKV m kv.1 kv.2) [] := by
    rw [List.foldl_map]
  rw [hmap, lookupKV_foldl_setKV]
  cases hfs : (((goSplit ',' input).filter (fun t => t.length ≠ 0)).map tokenKV).reverse.findSome?
      (fun kv => if kv.1 = k then some kv.2 else none) with
  | some v => rfl
  | none => rfl

theorem resolver_contract_witness :
    (':' ∉ "db/creds".data ∧ ':' ∉ "app-db".data) ∧
    (parseSecrets "db/creds:app-db,db/creds:app-db-2,," =
      ((goSplit ',' "db/creds:app-db,db/creds:app-db-2,,").filter
          (fun t => t.length ≠ 0)).foldl
        (fun m item => setKV m (tokenKV item).1 (tokenKV item).2) [] ∧
    lookupKV (parseSecrets "db/creds:app-db,db/creds:app-db-2,,") "app-db" =
      (((goSplit ',' "db/creds:app-db,db/creds:app-db-2,,").filter
          (fun t => t.length ≠ 0)).map tokenKV).reverse.findSome?
        (fun kv => if kv.1 = "app-db" then some kv.2 else none) ∧
    tokenKV ("db/creds" ++ ":" ++ "app-db") = ("app-db", "db/creds") ∧
    tokenKV "db/creds" = (pathBase "db/creds", "db/creds") ∧
    ((∃ e, newFromEnvironment "db/creds:app-db,db/creds:app-db-2,," =
        .error e) ↔
      parseSecrets "db/creds:app-db,db/creds:app-db-2,," = [])) :=
  ⟨⟨by decide, by decide⟩,
   resolver_contract "db/creds:app-db,db/creds:app-db-2,," "app-db"
     "db/creds" "app-db" (by decide) (by decide)⟩

/-! ## Idempotence machinery -/

theorem syncLoop_cons {w : World} {ann : SMap} {st : Store} {k v : String}
    {rest : List (String × String)} {ann' : SMap} {st' : Store}
    {secret : KSecret} {created : Bool}
    (hs : syncStep w ann st k v = .ok (ann', st', secret, created)) :
    syncLoop w ann st ((k, v) :: rest) =
      ⟨(syncLoop w ann' st' rest).err, (syncLoop w ann' st' rest).ann,
       (syncLoop w ann' st' rest).store,
       (if created then [k] else []) ++ (syncLoop w ann' st' rest).created,
       (if created then [] else [k]) ++ (syncLoop w ann' st' rest).updated,
       secret :: (syncLoop w ann' st' rest).writes,
       ann :: (syncLoop w ann' st' rest).annAtIterStart⟩ := by
  simp only [syncLoop, hs]

theorem map_replace_names {st : Store} {k : String} {snew : KSecret}
    (h : snew.name = k) :
    (st.map (fun t => if t.name = k then snew else t)).map
        (fun s => s.name) =
      st.map (fun s => s.name) := by
  rw [List.map_map]
  apply List.map_congr_left
  intro t _
  by_cases hh : t.name = k <;> simp [hh, h]

theorem syncStep_names_nodup {w : World} {ann : SMap} {st : Store}
    {k v : String} {ann' : SMap} {st' : Store} {secret : KSecret}
    {created : Bool}
    (hs : syncStep w ann st k v = .ok (ann', st', secret, created))
    (hnd : (st.map (fun s => s.name)).Nodup) :
    (st'.map (fun s => s.name)).Nodup := by
  obtain ⟨payload, _, _, hsec, hcase | hcase⟩ := syncStep_ok hs
  · obtain ⟨_, hget, hst'⟩ := hcase
    subst hst'
    have hnotin : k ∉ st.map (fun s => s.name) := by
      intro hmem
      obtain ⟨s, hsm, hsn⟩ := List.mem_map.mp hmem
      exact storeGet_eq_none_iff.mp hget s hsm hsn
    simp only [List.map_append, List.map_cons, List.map_nil]
    rw [List.nodup_append]
    refine ⟨hnd, List.nodup_singleton _, ?_⟩
    intro a ha hb
    simp only [List.mem_singleton] at hb
    subst hb
    rw [hsec] at ha
    exact hnotin ha
  · obtain ⟨_, _, hst'⟩ := hcase
    subst hst'
    rw [map_replace_names (by rw [hsec])]
    exact hnd

theorem storeGet_append_single {st : Store} {s : KSecret} {k : String} :
    storeGet st k = none → s.name = k → storeGet (st ++ [s]) k = some s := by
  induction st with
  | nil =>
    intro _ hn
    simp [storeGet, List.find?, hn]
  | cons t rest ih =>
    intro hget hn
    have ht : t.name ≠ k := by
      intro he
      simp only [storeGet] at hget
      rw [List.find?_cons_of_pos _ (by simpa using he)] at hget
      cases hget
    simp only [storeGet, List.cons_append] at *
    rw [List.find?_cons_of_neg _ (by simpa using ht)] at hget ⊢
    exact ih hget hn

theorem storeGet_append_single_other {st : Store} {s : KSecret} {k : String}
    (h : s.name ≠ k) : storeGet (st ++ [s]) k = storeGet st k := by
  induction st with
  | nil => simp [storeGet, List.find?, h]
  | cons t rest ih =>
    by_cases ht : t.name = k
    · simp only [storeGet, List.cons_append]
      rw [List.find?_cons_of_pos _ (by simpa using ht),
        List.find?_cons_of_pos _ (by simpa using ht)]
    · simp only [storeGet, List.cons_append] at ih ⊢
      rw [List.find?_cons_of_neg _ (by simpa using ht),
        List.find?_cons_of_neg _ (by simpa using ht)]
      exact ih

theorem storeGet_map_replace_other {st : Store} {k' : String}
    {snew : KSecret} {k : String} (hname : snew.name = k') (hne : k ≠ k') :
    storeGet (st.map (fun t => if t.name = k' then snew else t)) k =
      storeGet st k := by
  induction st with
  | nil => rfl
  | cons t rest ih =>
    by_cases h : t.name = k'
    · simp only [List.map_cons, if_pos h, storeGet] at ih ⊢
      rw [List.find?_cons_of_neg _ (by simp [hname]; exact fun he => hne he.symm),
        List.find?_cons_of_neg _ (by simp [h]; exact fun he => hne he.symm)]
      exact ih
    · by_cases hk : t.name = k
      · simp only [List.map_cons, if_neg h, storeGet]
        rw [List.find?_cons_of_pos _ (by simpa using hk),
          List.find?_cons_of_pos _ (by simpa using hk)]
      · simp only [List.map_cons, if_neg h, storeGet] at ih ⊢
        rw [List.find?_cons_of_neg _ (by simpa using hk),
          List.find?_cons_of_neg _ (by simpa using hk)]
        exact ih

theorem syncLoop_no_err {w : World} :
    ∀ (secrets : List (String × String)) (ann : SMap) (st : Store),
    secrets.all (fun kv => (w.remote kv.2).isSome) = true →
    secrets.all (fun kv => !w.getFault kv.1) = true →
    secrets.all (fun kv => !w.createFault kv.1) = true →
    secrets.all (fun kv => !w.updateFault kv.1) = true →
    (syncLoop w ann st secrets).err = none := by
  intro secrets
  induction secrets with
  | nil => intro ann st _ _ _ _; rfl
  | cons kv rest ih =>
    intro ann st hrem hget hcre hupd
    obtain ⟨k, v⟩ := kv
    simp only [List.all_cons, Bool.and_eq_true] at hrem hget hcre hupd
    obtain ⟨payload, hpay⟩ := Option.isSome_iff_exists.mp hrem.1
    have hg : w.getFault k = false := by simpa using hget.1
    have hc : w.createFault k = false := by simpa using hcre.1
    have hu : w.updateFault k = false := by simpa using hupd.1
    cases hex : storeGet st k with
    | none =>
      rw [syncLoop_cons (syncStep_create hpay hg hex hc)]
      exact ih _ _ hrem.2 hget.2 hcre.2 hupd.2
    | some s =>
      rw [syncLoop_cons (syncStep_update hpay hex hu)]
      exact ih _ _ hrem.2 hget.2 hcre.2 hupd.2

theorem syncLoop_get_frame {w : World} :
    ∀ (secrets : List (String × String)) (ann : SMap) (st : Store)
      (k : String),
    (∀ kv ∈ secrets, k ≠ kv.1) →
    storeGet (syncLoop w ann st secrets).store k = storeGet st k := by
  intro secrets
  induction secrets with
  | nil => intro ann st k _; rfl
  | cons kv rest ih =>
    intro ann st k hk
    obtain ⟨k', v'⟩ := kv
    have hkk' : k ≠ k' := hk (k', v') (List.mem_cons_self ..)
    simp only [syncLoop]
    cases hs : syncStep w ann st k' v' with
    | error e => rfl
    | ok out =>
      obtain ⟨ann', st', secret, created⟩ := out
      dsimp only
      rw [ih ann' st' k (fun kv hkv => hk kv (List.mem_cons_of_mem _ hkv))]
      obtain ⟨payload, _, _, hsec, hcase | hcase⟩ := syncStep_ok hs
      · rw [hcase.2.2]
        exact storeGet_append_single_other
          (by rw [hsec]; exact fun he => hkk' he.symm)
      · rw [hcase.2.2]
        exact storeGet_map_replace_other (by rw [hsec]) hkk'

theorem syncLoop_final_get {w : World} :
    ∀ (secrets : List (String × String)) (ann : SMap) (st : Store),
    annOK ann →
    (secrets.map (fun kv => kv.1)).Nodup →
    (st.map (fun s => s.name)).Nodup →
    (syncLoop w ann st secrets).err = none →
    ∀ kv ∈ secrets,
      storeGet (syncLoop w ann st secrets).store kv.1 =
        some (mkSecret w kv.1 kv.2) := by
  intro secrets
  induction secrets with
  | nil => intro ann st _ _ _ _ kv h; cases h
  | cons kv0 rest ih =>
    intro ann st hann hnds hndst herr kv hkv
    obtain ⟨k, v⟩ := kv0
    simp only [List.map_cons, List.nodup_cons] at hnds
    simp only [syncLoop] at herr
    cases hs : syncStep w ann st k v with
    | error e =>
      rw [hs] at herr
      dsimp only at herr
      cases herr
    | ok out =>
      obtain ⟨ann', st', secret, created⟩ := out
      rw [hs] at herr
      dsimp only at herr
      obtain ⟨payload, hpay, hann', hsec, hcase⟩ := syncStep_ok hs
      have hann2 : annOK ann' :=
        Or.inr ⟨v, by rw [hann']; exact setKV_annOK hann v⟩
      have hndst' := syncStep_names_nodup hs hndst
      have hmk : secret = mkSecret w k v := by
        rw [hsec, hann', setKV_annOK hann v]
        simp [mkSecret, hpay]
      rw [syncLoop_cons hs]
      dsimp only
      rcases List.mem_cons.mp hkv with he | hmem
      · subst he
        dsimp only
        rw [syncLoop_get_frame rest ann' st' k
          (fun kv' hkv' hne =>
            hnds.1 (by rw [hne]; exact List.mem_map_of_mem _ hkv'))]
        rcases hcase with ⟨_, hget, hst'⟩ | ⟨_, hsome, hst'⟩
        · rw [hst', storeGet_append_single hget (by rw [hsec]), hmk]
        · rw [hst', storeGet_map_replace (by rw [hsec]) hsome, hmk]
      · exact ih ann' st' hann2 hnds.2 hndst' herr kv hmem

/-- An object of the final loop store whose name matches no processed entry
was already in the initial store, unchanged. -/
theorem syncLoop_frame {w : World} :
    ∀ (secrets : List (String × String)) (ann : SMap) (st : Store)
      (s : KSecret),
    s ∈ (syncLoop w ann st secrets).store →
    (∀ kv ∈ secrets, s.name ≠ kv.1) → s ∈ st := by
  intro secrets
  induction secrets with
  | nil => intro ann st s h _; exact h
  | cons kv rest ih =>
    intro ann st s hmem hk
    obtain ⟨k', v'⟩ := kv
    have hkk' : s.name ≠ k' := hk (k', v') (List.mem_cons_self ..)
    simp only [syncLoop] at hmem
    cases hs : syncStep w ann st k' v' with
    | error e => rw [hs] at hmem; exact hmem
    | ok out =>
      obtain ⟨ann', st', secret, created⟩ := out
      rw [hs] at hmem
      dsimp only at hmem
      have hst' := ih ann' st' s hmem
        (fun kv hkv => hk kv (List.mem_cons_of_mem _ hkv))
      obtain ⟨payload, _, _, hsec, hcase | hcase⟩ := syncStep_ok hs
      · rw [hcase.2.2] at hst'
        rcases List.mem_append.mp hst' with h | h
        · exact h
        · simp only [List.mem_singleton] at h
          rw [h, hsec] at hkk'
          exact absurd rfl hkk'
      · rw [hcase.2.2] at hst'
        obtain ⟨t, ht, hte⟩ := List.mem_map.mp hst'
        by_cases htn : t.name = k'
        · rw [if_pos htn] at hte
          rw [← hte, hsec] at hkk'
          exact absurd rfl hkk'
        · rw [if_neg htn] at hte
          rw [← hte]
          exact ht

theorem map_replace_id {st : Store} {k : String} {snew : KSecret} :
    (st.map (fun s => s.name)).Nodup →
    storeGet st k = some snew →
    st.map (fun t => if t.name = k then snew else t) = st := by
  induction st with
  | nil => intro _ h; cases h
  | cons t rest ih =>
    intro hnd hget
    simp only [List.map_cons, List.nodup_cons] at hnd
    simp only [storeGet] at hget
    by_cases ht : t.name = k
    · rw [List.find?_cons_of_pos _ (by simpa using ht)] at hget
      have hsnew : snew = t := (Option.some.inj hget).symm
      rw [hsnew]
      simp only [List.map_cons, if_pos ht]
      have htail : ∀ s ∈ rest, (if s.name = k then t else s) = s := by
        intro s hs
        have hne : ¬ s.name = k := by
          intro he
          exact hnd.1 (by rw [ht, ← he]; exact List.mem_map_of_mem _ hs)
        rw [if_neg hne]
      have hmap : List.map (fun s => if s.name = k then t else s) rest =
          rest := by
        calc List.map (fun s => if s.name = k then t else s) rest
            = List.map id rest :=
              List.map_congr_left (by intro s hs; rw [htail s hs]; rfl)
          _ = rest := List.map_id rest
      rw [hmap]
    · rw [List.find?_cons_of_neg _ (by simpa using ht)] at hget
      simp only [List.map_cons, if_neg ht]
      rw [ih hnd.2 hget]

/-- When every desired object already exists exactly as it would be
written, the create/update loop performs only updates and leaves the store
unchanged. -/
theorem syncLoop_update_only {w : World} :
    ∀ (secrets : List (String × String)) (ann : SMap) (st : Store),
    annOK ann →
    (st.map (fun s => s.name)).Nodup →
    (∀ kv ∈ secrets, (w.remote kv.2).isSome = true ∧
      w.getFault kv.1 = false ∧ w.updateFault kv.1 = false ∧
      storeGet st kv.1 = some (mkSecret w kv.1 kv.2)) →
    (syncLoop w ann st secrets).err = none ∧
    (syncLoop w ann st secrets).store = st ∧
    (syncLoop w ann st secrets).created = [] ∧
    (syncLoop w ann st secrets).updated = secrets.map (fun kv => kv.1) := by
  intro secrets
  induction secrets with
  | nil => intro ann st _ _ _; exact ⟨rfl, rfl, rfl, rfl⟩
  | cons kv rest ih =>
    intro ann st hann hnd hcond
    obtain ⟨k, v⟩ := kv
    obtain ⟨hrem, hg, hu, hget⟩ := hcond (k, v) (List.mem_cons_self ..)
    obtain ⟨payload, hpay⟩ := Option.isSome_iff_exists.mp hrem
    have hmk : (⟨k, payload, setKV ann vaultMarker v⟩ : KSecret) =
        mkSecret w k v := by
      rw [setKV_annOK hann v]
      simp [mkSecret, hpay]
    have hrepl : st.map (fun t =>
        if t.name = k then ⟨k, payload, setKV ann vaultMarker v⟩ else t) =
        st := by
      rw [hmk]
      exact map_replace_id hnd hget
    rw [syncLoop_cons (syncStep_update hpay hget hu)]
    dsimp only
    rw [hrepl]
    have hann2 : annOK (setKV ann vaultMarker v) :=
      Or.inr ⟨v, setKV_annOK hann v⟩
    obtain ⟨h1, h2, h3, h4⟩ := ih (setKV ann vaultMarker v) st hann2 hnd
      (fun kv hkv => hcond kv (List.mem_cons_of_mem _ hkv))
    exact ⟨h1, h2, by simpa using h3, by simp [h4]⟩

theorem cleanup_no_fail {w : World} {desired : List (String × String)} :
    ∀ st : Store,
    (∀ s ∈ st, isManaged s = true →
      desired.any (fun kv => kv.1 = s.name) = false →
      w.deleteFault s.name = false) →
    (cleanup w desired st).deleteFailed = [] := by
  intro st
  induction st with
  | nil => intro _; rfl
  | cons t rest ih =>
    intro h
    have hrest := ih (fun s hs => h s (List.mem_cons_of_mem _ hs))
    simp only [cleanup]
    by_cases h1 : isManaged t = false
    · rw [if_pos h1]; exact hrest
    · rw [if_neg h1]
      by_cases h2 : desired.any (fun kv => kv.1 = t.name) = true
      · rw [if_pos h2]; exact hrest
      · rw [if_neg h2]
        have hdf : w.deleteFault t.name = false :=
          h t (List.mem_cons_self ..) (by simpa using h1)
            (Bool.eq_false_iff.mpr h2)
        rw [if_neg (by simp [hdf])]
        exact hrest

/-- When no managed object is obsolete, the deletion phase does nothing. -/
theorem cleanup_id {w : World} {desired : List (String × String)} :
    ∀ st : Store,
    (∀ s ∈ st, isManaged s = true →
      desired.any (fun kv => kv.1 = s.name) = true) →
    cleanup w desired st = ⟨st, [], []⟩ := by
  intro st
  induction st with
  | nil => intro _; rfl
  | cons t rest ih =>
    intro h
    have hrest := ih (fun s hs => h s (List.mem_cons_of_mem _ hs))
    simp only [cleanup, hrest]
    by_cases h1 : isManaged t = false
    · rw [if_pos h1]
    · rw [if_neg h1, if_pos (h t (List.mem_cons_self ..) (by simpa using h1))]

theorem cleanup_store_sublist (w : World)
    (desired : List (String × String)) :
    ∀ st : Store, (cleanup w desired st).store.Sublist st := by
  intro st
  induction st with
  | nil => exact List.Sublist.refl _
  | cons t rest ih =>
    simp only [cleanup]
    by_cases h1 : isManaged t = false
    · rw [if_pos h1]; exact ih.cons₂ t
    · rw [if_neg h1]
      by_cases h2 : desired.any (fun kv => kv.1 = t.name) = true
      · rw [if_pos h2]; exact ih.cons₂ t
      · rw [if_neg h2]
        by_cases h3 : w.deleteFault t.name = true
        · rw [if_pos h3]; exact ih.cons₂ t
        · rw [if_neg h3]; exact ih.cons t

theorem syncLoop_names_nodup {w : World} :
    ∀ (secrets : List (String × String)) (ann : SMap) (st : Store),
    (st.map (fun s => s.name)).Nodup →
    ((syncLoop w ann st secrets).store.map (fun s => s.name)).Nodup := by
  intro secrets
  induction secrets with
  | nil => intro ann st h; exact h
  | cons kv rest ih =>
    intro ann st h
    obtain ⟨k, v⟩ := kv
    simp only [syncLoop]
    cases hs : syncStep w ann st k v with
    | error e => exact h
    | ok out =>
      obtain ⟨ann', st', secret, created⟩ := out
      dsimp only
      exact ih ann' st' (syncStep_names_nodup hs h)

/-- C8 (Idempotence): with the desired keys and the initial store names
free of duplicates, every vault read succeeding and no kubernetes fault,
both runs succeed, the second run leaves the store exactly as the first
run left it, and the second run performs only updates — no creates and no
deletes. -/
theorem synchronize_idempotent (w : World)
    (secrets : List (String × String)) (st : Store)
    (hnds : (secrets.map (fun kv => kv.1)).Nodup)
    (hndst : (st.map (fun s => s.name)).Nodup)
    (hrem : secrets.all (fun kv => (w.remote kv.2).isSome) = true)
    (hget : secrets.all (fun kv => !w.getFault kv.1) = true)
    (hcre : secrets.all (fun kv => !w.createFault kv.1) = true)
    (hupd : secrets.all (fun kv => !w.updateFault kv.1) = true)
    (hdel : st.all (fun s => !w.deleteFault s.name) = true)
    (hlist : w.listFault = false) :
    (synchronize w secrets st).outcome = .success ∧
    (synchronize w secrets (synchronize w secrets st).store).outcome =
      .success ∧
    (synchronize w secrets (synchronize w secrets st).store).store =
      (synchronize w secrets st).store ∧
    (synchronize w secrets (synchronize w secrets st).store).loop.created =
      [] ∧
    (synchronize w secrets (synchronize w secrets st).store).loop.updated =
      secrets.map (fun kv => kv.1) ∧
    (synchronize w secrets (synchronize w secrets st).store).deleted = [] ∧
    (synchronize w secrets (synchronize w secrets st).store).deleteFailed =
      [] := by
  have herr1 : (syncLoop w [] st secrets).err = none :=
    syncLoop_no_err secrets [] st hrem hget hcre hupd
  have hR1 := synchronize_ok herr1 hlist
  have hndL1 : ((syncLoop w [] st secrets).store.map
      (fun s => s.name)).Nodup :=
    syncLoop_names_nodup secrets [] st hndst
  have hfg : ∀ kv ∈ secrets,
      storeGet (syncLoop w [] st secrets).store kv.1 =
        some (mkSecret w kv.1 kv.2) :=
    syncLoop_final_get secrets [] st (Or.inl rfl) hnds hndst herr1
  have hobs : ∀ s ∈ (syncLoop w [] st secrets).store,
      isManaged s = true →
      secrets.any (fun kv => kv.1 = s.name) = false →
      w.deleteFault s.name = false := by
    intro s hs _ hany
    have hnot : ∀ kv ∈ secrets, s.name ≠ kv.1 := by
      intro kv hkv he
      have hyes : secrets.any (fun kv => kv.1 = s.name) = true :=
        List.any_eq_true.mpr ⟨kv, hkv, decide_eq_true he.symm⟩
      rw [hany] at hyes
      cases hyes
    have hsmem := syncLoop_frame secrets [] st s hs hnot
    simpa using List.all_eq_true.mp hdel s hsmem
  have hC1fail :
      (cleanup w secrets (syncLoop w [] st secrets).store).deleteFailed = [] :=
    cleanup_no_fail _ hobs
  have hsub := cleanup_store_sublist w secrets (syncLoop w [] st secrets).store
  have hC1nd : ((cleanup w secrets (syncLoop w [] st secrets).store).store.map
      (fun s => s.name)).Nodup :=
    List.Nodup.sublist (hsub.map (fun s => s.name)) hndL1
  have hC1get : ∀ kv ∈ secrets,
      storeGet (cleanup w secrets (syncLoop w [] st secrets).store).store
        kv.1 = some (mkSecret w kv.1 kv.2) := by
    intro kv hkv
    have hmem :=
      (mem_of_storeGet_eq_some (hfg kv hkv)).1
    have hkeep : mkSecret w kv.1 kv.2 ∈
        (cleanup w secrets (syncLoop w [] st secrets).store).store :=
      cleanup_keeps hmem (Or.inr
        (List.any_eq_true.mpr ⟨kv, hkv, decide_eq_true rfl⟩))
    exact storeGet_eq_some_of_mem hC1nd hkeep
  have hcond : ∀ kv ∈ secrets, (w.remote kv.2).isSome = true ∧
      w.getFault kv.1 = false ∧ w.updateFault kv.1 = false ∧
      storeGet (cleanup w secrets (syncLoop w [] st secrets).store).store
        kv.1 = some (mkSecret w kv.1 kv.2) := by
    intro kv hkv
    refine ⟨List.all_eq_true.mp hrem kv hkv, ?_, ?_, hC1get kv hkv⟩
    · simpa using List.all_eq_true.mp hget kv hkv
    · simpa using List.all_eq_true.mp hupd kv hkv
  obtain ⟨herr2, hst2, hcre2, hupd2⟩ :=
    syncLoop_update_only secrets []
      (cleanup w secrets (syncLoop w [] st secrets).store).store
      (Or.inl rfl) hC1nd hcond
  have hR2 := synchronize_ok herr2 hlist
  have hC2 : cleanup w secrets
      (syncLoop w []
        (cleanup w secrets (syncLoop w [] st secrets).store).store
        secrets).store =
      ⟨(cleanup w secrets (syncLoop w [] st secrets).store).store, [], []⟩ := by
    rw [hst2]
    refine cleanup_id _ ?_
    intro s hs hm
    refine (cleanup_managed_kept hs hm).resolve_right ?_
    rw [hC1fail]
    exact List.not_mem_nil _
  rw [hR1]
  dsimp only
  rw [hR2, hC2]
  dsimp only
  exact ⟨rfl, rfl, rfl, hcre2, hupd2, rfl, rfl⟩

theorem synchronize_idempotent_witness :
    ((exSecretsTwo.map (fun kv => kv.1)).Nodup ∧
      (exStore.map (fun s => s.name)).Nodup ∧
      exSecretsTwo.all (fun kv => (exWorldTwo.remote kv.2).isSome) = true) ∧
    ((synchronize exWorldTwo exSecretsTwo exStore).outcome = .success ∧
    (synchronize exWorldTwo exSecretsTwo
        (synchronize exWorldTwo exSecretsTwo exStore).store).outcome =
      .success ∧
    (synchronize exWorldTwo exSecretsTwo
        (synchronize exWorldTwo exSecretsTwo exStore).store).store =
      (synchronize exWorldTwo exSecretsTwo exStore).store ∧
    (synchronize exWorldTwo exSecretsTwo
        (synchronize exWorldTwo exSecretsTwo exStore).store).loop.created =
      [] ∧
    (synchronize exWorldTwo exSecretsTwo
        (synchronize exWorldTwo exSecretsTwo exStore).store).loop.updated =
      exSecretsTwo.map (fun kv => kv.1) ∧
    (synchronize exWorldTwo exSecretsTwo
        (synchronize exWorldTwo exSecretsTwo exStore).store).deleted = [] ∧
    (synchronize exWorldTwo exSecretsTwo
        (synchronize exWorldTwo exSecretsTwo exStore).store).deleteFailed =
      []) :=
  ⟨⟨by decide, by decide, by decide⟩,
   synchronize_idempotent exWorldTwo exSecretsTwo exStore (by decide)
     (by decide) (by decide) (by decide) (by decide) (by decide) (by decide)
     (by decide)⟩
